import Mathlib

/-!
Verification of the umail one-time-pad core (key pool, message framer,
XOR cipher, session ledger) against its natural-language specification.

The Go sources are shallowly embedded:
  - bytes are natural numbers (Go uint8 values, 0..255);
  - a pool file is a structured value holding the 8-byte little-endian
    header cursor (as an integer, since Go stores an int64) and the raw
    data region;
  - an open pool handle mirrors struct Pool of resource/pool.go: the
    persisted header, the data region, the file descriptor's read
    position (relative to the start of the data region) and the
    in-memory cursor mirror Pool.Position;
  - fallible operations return explicit result values; Go panics are a
    distinct result constructor; the single fallible file write inside
    Pool.GetBytes (SetPositionToFile, the header persistence step) is
    modelled by an explicit persistOk argument so that the
    persist-before-advance ordering is observable.
-/

/-- Go slice expression xs[off : off+n] on the data region. -/
def byteSlice (xs : List Nat) (off n : Nat) : List Nat := (xs.drop off).take n

/-- The durable pool file of resource/pool.go: an 8-byte little-endian int64
cursor header followed by the raw key bytes.  The header is kept as an Int
because Go stores an int64 there (PoolOpen rejects negative values). -/
structure PoolFile where
  header : Int
  data : List Nat
deriving Repr, DecidableEq

/-- In-memory pool handle, mirroring struct Pool of resource/pool.go.
The file-path field is dropped (it only feeds error messages).
readPtr is the file descriptor's position, counted from the start of the
data region (Go counts from the start of the file; the fixed 8-byte header
offset is folded away, matching Pool.seek which always adds
positionTypeLength).  header is the currently persisted cursor value. -/
structure Pool where
  header : Nat
  data : List Nat
  readPtr : Nat
  Position : Nat
deriving Repr, DecidableEq

/-- Result of Pool.GetBytes: a Go panic, an error return (carrying the pool
state left behind by the failed call), or success. -/
inductive GetBytesResult where
  | panicked (p : Pool)
  | failed (p : Pool)
  | ok (bytes : List Nat) (p : Pool)
deriving Repr, DecidableEq

/-- Result of Pool.GetBytesAsChunks. -/
inductive ChunksResult where
  | panicked (p : Pool)
  | failed (p : Pool)
  | ok (chunks : List (List Nat)) (p : Pool)
deriving Repr, DecidableEq

/-- Pool.GetBytes of resource/pool.go.

Go code, in order: computes newPosition = p.Position + count; panics when
count <= 0; io.ReadFull reads count bytes from the current descriptor
position (failing, without touching the header or Position, when fewer
than count bytes remain — the descriptor still consumes what was there);
SetPositionToFile persists newPosition into the header (persistOk models
the success of that write; on failure the call errors out before the
in-memory cursor moves); p.seek(newPosition) repositions the descriptor;
only then is the in-memory cursor p.Position advanced. -/
def Pool.GetBytes (p : Pool) (count : Int) (persistOk : Bool) : GetBytesResult :=
  if count ≤ 0 then .panicked p
  else if p.data.length < p.readPtr + count.toNat then
    .failed { p with readPtr := min (p.readPtr + count.toNat) (max p.readPtr p.data.length) }
  else if persistOk then
    .ok (byteSlice p.data p.readPtr count.toNat)
      { header := p.Position + count.toNat, data := p.data,
        readPtr := p.Position + count.toNat, Position := p.Position + count.toNat }
  else .failed { p with readPtr := p.readPtr + count.toNat }

/-- Pool.GetBytesAsChunks of resource/pool.go: draws chunkCount*chunkLength
bytes through GetBytes, then splits the buffer into chunkCount consecutive
slices buffer[i*chunkLength : (i+1)*chunkLength]. -/
def Pool.GetBytesAsChunks (p : Pool) (chunkCount chunkLength : Int)
    (persistOk : Bool) : ChunksResult :=
  match Pool.GetBytes p (chunkCount * chunkLength) persistOk with
  | .panicked q => .panicked q
  | .failed q => .failed q
  | .ok buffer q =>
      .ok ((List.range chunkCount.toNat).map
            (fun i => byteSlice buffer (i * chunkLength.toNat) chunkLength.toNat)) q

/-- Pool.GetPositionFromFile (seek = false) of resource/pool.go: the
read-only inspection of the persisted header cursor. -/
def Pool.GetPositionFromFile (p : Pool) : Nat := p.header

/-- PoolOpen of resource/pool.go: opens an existing pool file, reads the
persisted cursor, rejects a negative cursor, seeks the descriptor to the
cursor and mirrors it into Position. -/
def PoolOpen (f : PoolFile) : Option Pool :=
  if f.header < 0 then none
  else some { header := f.header.toNat, data := f.data,
              readPtr := f.header.toNat, Position := f.header.toNat }

/-- Pool.Close: the durable file contents left behind by a pool handle
(the persisted header plus the untouched data region). -/
def poolClose (p : Pool) : PoolFile := { header := (p.header : Int), data := p.data }

/-- The state of a pool handle straight after PoolOpen (and after every
successful GetBytes): descriptor, in-memory cursor and persisted header
all agree. -/
def Pool.Wf (p : Pool) : Prop :=
  p.readPtr = p.Position ∧ p.header = p.Position

instance (p : Pool) : Decidable p.Wf := by
  unfold Pool.Wf; infer_instance

/-- The pool state after a successful GetBytes of n bytes from a
well-formed state. -/
def Pool.advance (p : Pool) (n : Nat) : Pool :=
  { p with header := p.Position + n, readPtr := p.Position + n,
           Position := p.Position + n }

/-- A single-process sequence of Pool.GetBytes calls (every header
persistence succeeding), as performed by a delivery loop: all calls must
succeed for the sequence to produce a result. -/
def takeSeq : Pool → List Int → Option (List (List Nat) × Pool)
  | p, [] => some ([], p)
  | p, c :: cs =>
    match Pool.GetBytes p c true with
    | .ok bs p1 =>
      match takeSeq p1 cs with
      | some (rest, q) => some (bs :: rest, q)
      | none => none
    | _ => none

/-- Total number of data bytes consumed by the first i takes. -/
def natSumTo (counts : List Int) (i : Nat) : Nat :=
  ((counts.take i).map Int.toNat).sum

/-- cypher of main.go: Go panics when the two slices have different lengths
(modelled as none); otherwise the elementwise XOR of the two sequences. -/
def cypher (b1 b2 : List Nat) : Option (List Nat) :=
  if b1.length ≠ b2.length then none
  else some (List.zipWith Nat.xor b1 b2)

/-- The 2-byte little-endian length prefix written by binary.Write with a
uint16 in Message.Load of data/message.go. -/
def lenPrefixLE (n : Nat) : List Nat := [n % 256, n / 256 % 256]

/-- Message.Load of data/message.go, applied to an in-memory payload (the
method reads its payload from the file at filePath; here the raw file
contents are the argument) and a chunk size.  It fails when the payload
exceeds 65535 bytes (math.MaxUint16); otherwise it prepends the 2-byte
little-endian payload length, emits every full chunkSize-byte chunk
message[i*chunkSize : (i+1)*chunkSize], and, when a remainder is left,
appends the remaining bytes zero-padded to chunkSize.  The receiver starts
empty, as in processCreateSession. -/
def MessageLoad (raw : List Nat) (chunkSize : Nat) : Option (List (List Nat)) :=
  if 65535 < raw.length then none
  else if 0 < (lenPrefixLE raw.length ++ raw).length % chunkSize then
    some ((List.range ((lenPrefixLE raw.length ++ raw).length / chunkSize)).map
        (fun i => byteSlice (lenPrefixLE raw.length ++ raw) (i * chunkSize) chunkSize) ++
      [(lenPrefixLE raw.length ++ raw).drop
          (chunkSize * ((lenPrefixLE raw.length ++ raw).length / chunkSize)) ++
        List.replicate (chunkSize - (lenPrefixLE raw.length ++ raw).length % chunkSize) 0])
  else
    some ((List.range ((lenPrefixLE raw.length ++ raw).length / chunkSize)).map
      (fun i => byteSlice (lenPrefixLE raw.length ++ raw) (i * chunkSize) chunkSize))

/-- Session of data/session.go.  Boundaries is an Option to mirror Go's
distinction between a nil slice and an empty slice, which
Session.MarshalJSON renders differently (null versus an empty array).
The pool name is a Go string, modelled as a list of characters. -/
structure Session where
  PoolPointerPosition : Int
  PoolName : List Char
  EmailIndex : Int
  Boundaries : Option (List (List Nat))
deriving Repr, DecidableEq

/-- Session.Init of data/session.go. -/
def Session.Init (poolName : List Char) (poolPointerPosition : Int) : Session :=
  { PoolName := poolName, PoolPointerPosition := poolPointerPosition,
    EmailIndex := 0, Boundaries := some [] }

/-- Session.AddBoundary of data/session.go (Go append also turns a nil
slice into a one-element slice). -/
def Session.AddBoundary (s : Session) (boundary : List Nat) : Session :=
  { s with Boundaries := some (s.Boundaries.getD [] ++ [boundary]) }

/-- The chunk length of a MIME boundary, const boundaryLength of main.go. -/
def boundaryLength : Nat := 35

/-- The cipher loop of processCreateSession in main.go:
for i, m := range message, session.AddBoundary(cypher(m, key[i])).
The message chunks are zipped with their key chunks (the key always holds
exactly one chunk per message chunk); a cypher panic propagates as none. -/
def addBoundaries (s : Session) : List (List Nat × List Nat) → Option Session
  | [] => some s
  | (m, k) :: rest =>
    match cypher m k with
    | none => none
    | some c => addBoundaries (s.AddBoundary c) rest

/-- processCreateSession of main.go, its command-line parsing, filesystem
and session Save plumbing stripped to the session-construction core: open
the pool, remember the pool cursor before the draw (poolPointerPosition =
pool.Position), frame the message with chunk length boundaryLength, draw
one key chunk per message chunk, and build the session boundary by
boundary from Session.Init. -/
def processCreateSession (keyName : List Char) (f : PoolFile)
    (payload : List Nat) : Option (Session × Pool) :=
  match PoolOpen f with
  | none => none
  | some pool =>
    match MessageLoad payload boundaryLength with
    | none => none
    | some message =>
      match Pool.GetBytesAsChunks pool (message.length : Int)
          (boundaryLength : Int) true with
      | .ok key q =>
        match addBoundaries (Session.Init keyName (pool.Position : Int))
            (message.zip key) with
        | some s => some (s, q)
        | none => none
      | _ => none

/-- Result of one processSend call: a Go panic (index out of range), an
error return, or a completed send.  Each constructor carries the session
stored on disk after the call. -/
inductive SendResult where
  | panicked (stored : Session)
  | errored (stored : Session)
  | sent (stored : Session)
deriving Repr, DecidableEq

/-- The session left on disk by a processSend call. -/
def SendResult.stored : SendResult → Session
  | .panicked s => s
  | .errored s => s
  | .sent s => s

/-- processSend of main.go, reduced to its effect on the stored session
(the command line, body file, template rendering and SMTP dialogue are
plumbing around it): load the stored session; refuse when EmailIndex has
already reached the number of boundaries (session.EmailIndex >=
len(session.Boundaries)), leaving the stored session untouched; otherwise
read session.Boundaries[session.EmailIndex] — a Go panic when the index is
negative, which the guard does not exclude — and deliver the email (smtpOk
models the SMTP dialogue succeeding; on failure the function errors out
before the index is touched); finally increment EmailIndex by exactly one
and save the session. -/
def processSend (stored : Session) (smtpOk : Bool) : SendResult :=
  if ((stored.Boundaries.getD []).length : Int) ≤ stored.EmailIndex then
    .errored stored
  else if stored.EmailIndex < 0 then .panicked stored
  else if smtpOk then
    .sent { stored with EmailIndex := stored.EmailIndex + 1 }
  else .errored stored

/-- The character emitted for a decimal digit by fmt's %d verb. -/
def digitChar (d : Nat) : Char :=
  if d = 0 then '0' else if d = 1 then '1' else if d = 2 then '2'
  else if d = 3 then '3' else if d = 4 then '4' else if d = 5 then '5'
  else if d = 6 then '6' else if d = 7 then '7' else if d = 8 then '8' else '9'

/-- Decimal rendering of a natural number, most significant digit first,
as produced by fmt.Sprintf with the %d verb on an unsigned value.  The
fuel argument of the worker makes the recursion structural (any fuel
above the digit count gives the same answer); renderNat_eq below is the
natural unfolding equation. -/
def renderNatAux : Nat → Nat → List Char
  | 0, _ => []
  | fuel + 1, n =>
    if n < 10 then [digitChar n]
    else renderNatAux fuel (n / 10) ++ [digitChar (n % 10)]

def renderNat (n : Nat) : List Char := renderNatAux (n + 1) n

/-- Decimal rendering of a Go int / int64 with the %d verb. -/
def renderInt (i : Int) : List Char :=
  if i < 0 then '-' :: renderNat i.natAbs else renderNat i.toNat

/-- strings.Join(elements, ",") of data/session.go. -/
def joinComma : List (List Char) → List Char
  | [] => []
  | [x] => x
  | x :: xs => x ++ ',' :: joinComma xs

/-- One boundary rendered by Session.MarshalJSON:
"[" + strings.Join(elements, ",") + "]". -/
def renderByteArray (a : List Nat) : List Char :=
  '[' :: (joinComma (a.map renderNat) ++ [']'])

/-- The boundaries field of Session.MarshalJSON: the string "null" for a
nil slice, otherwise "[" + strings.Join(arrays, ",") + "]". -/
def renderBoundaries : Option (List (List Nat)) → List Char
  | none => ['n', 'u', 'l', 'l']
  | some bs => '[' :: (joinComma (bs.map renderByteArray) ++ [']'])

def litEmailIndex : List Char :=
  ['\x7b', '"', 'e', 'm', 'a', 'i', 'l', '-', 'i', 'n', 'd', 'e', 'x', '"', ':']

def litPoolName : List Char :=
  [',', '"', 'p', 'o', 'o', 'l', '-', 'n', 'a', 'm', 'e', '"', ':', '"']

def litPoolPosition : List Char :=
  [',', '"', 'p', 'o', 'o', 'l', '-', 'p', 'o', 's', 'i', 't', 'i', 'o', 'n', '"', ':']

def litBoundaries : List Char :=
  [',', '"', 'b', 'o', 'u', 'n', 'd', 'a', 'r', 'i', 'e', 's', '"', ':']

def litClose : List Char := ['\x7d']

/-- Session.MarshalJSON of data/session.go: the hand-rolled serialization
fmt.Sprintf of the fixed template with email-index, pool-name (spliced in
verbatim with %s, without any JSON escaping), pool-position and
boundaries. -/
def Session.MarshalJSON (s : Session) : List Char :=
  litEmailIndex ++ renderInt s.EmailIndex ++ litPoolName ++ s.PoolName ++
  '"' :: (litPoolPosition ++ renderInt s.PoolPointerPosition ++ litBoundaries ++
    renderBoundaries s.Boundaries ++ litClose)

/-- Match an expected literal prefix (the fixed field-name syntax the
serializer always emits) and return the remainder. -/
def expectChars : List Char → List Char → Option (List Char)
  | [], cs => some cs
  | _ :: _, [] => none
  | e :: es, c :: cs => if c = e then expectChars es cs else none

/-- Greedy decimal digit consumption of a JSON number. -/
def parseNatAux : Nat → List Char → Nat × List Char
  | acc, [] => (acc, [])
  | acc, c :: cs =>
    if c.isDigit then parseNatAux (10 * acc + (c.toNat - 48)) cs
    else (acc, c :: cs)

/-- A JSON unsigned number: at least one digit. -/
def parseNat? : List Char → Option (Nat × List Char)
  | [] => none
  | c :: cs => if c.isDigit then some (parseNatAux 0 (c :: cs)) else none

/-- A JSON integer: an optional minus sign then digits. -/
def parseInt? : List Char → Option (Int × List Char)
  | [] => none
  | c :: rest =>
    if c = '-' then (parseNat? rest).map (fun nr => (-(nr.1 : Int), nr.2))
    else (parseNat? (c :: rest)).map (fun nr => ((nr.1 : Int), nr.2))

/-- The contents of a JSON string up to and including the closing quote.
Escape sequences and control characters are rejected: names written by
Session.MarshalJSON contain no escapes (the %s verb never produces any),
and encoding/json rejects raw control characters inside strings. -/
def parseNameChars : List Char → Option (List Char × List Char)
  | [] => none
  | c :: cs =>
    if c = '"' then some ([], cs)
    else if c = '\\' ∨ c.toNat < 32 then none
    else (parseNameChars cs).map (fun sr => (c :: sr.1, sr.2))

/-- The elements of a non-empty JSON array of byte values, after the
opening bracket, up to and including the closing bracket.  Values outside
0..255 are rejected, as encoding/json does when filling a []uint8.  The
fuel argument bounds the number of elements; callers pass the remaining
input length, which always suffices. -/
def parseByteItems : Nat → List Char → Option (List Nat × List Char)
  | 0, _ => none
  | fuel + 1, cs =>
    match parseNat? cs with
    | none => none
    | some (n, rest) =>
      if 256 ≤ n then none
      else
        match rest with
        | [] => none
        | c :: r2 =>
          if c = ',' then (parseByteItems fuel r2).map (fun ar => (n :: ar.1, ar.2))
          else if c = ']' then some ([n], r2)
          else none

/-- A JSON array of byte values. -/
def parseByteArray (fuel : Nat) (cs : List Char) : Option (List Nat × List Char) :=
  match cs with
  | [] => none
  | c :: rest =>
    if c = '[' then
      match rest with
      | [] => none
      | d :: r2 => if d = ']' then some ([], r2) else parseByteItems fuel (d :: r2)
    else none

/-- The elements of a non-empty JSON array of byte arrays, after the
opening bracket, up to and including the closing bracket. -/
def parseArrItems (innerFuel : Nat) : Nat → List Char → Option (List (List Nat) × List Char)
  | 0, _ => none
  | fuel + 1, cs =>
    match parseByteArray innerFuel cs with
    | none => none
    | some (a, rest) =>
      match rest with
      | [] => none
      | c :: r2 =>
        if c = ',' then (parseArrItems innerFuel fuel r2).map (fun br => (a :: br.1, br.2))
        else if c = ']' then some ([a], r2)
        else none

/-- The boundaries value: JSON null (decoded by encoding/json as a nil
slice), an empty array, or a non-empty array of byte arrays. -/
def parseBoundaries (fuel : Nat) (cs : List Char) :
    Option (Option (List (List Nat)) × List Char) :=
  match cs with
  | [] => none
  | c :: rest =>
    if c = 'n' then
      match rest with
      | 'u' :: 'l' :: 'l' :: r2 => some (none, r2)
      | _ => none
    else if c = '[' then
      match rest with
      | [] => none
      | d :: r2 =>
        if d = ']' then some (some [], r2)
        else (parseArrItems fuel fuel (d :: r2)).map (fun br => (some br.1, br.2))
    else none

/-- Session.Load of data/session.go: os.ReadFile then json.Unmarshal into
the Session struct.  The model is encoding/json's decoding restricted to
the records Session.MarshalJSON emits — the four fields in their fixed
order — plus the usual JSON syntax errors (unterminated or malformed
values make Load fail, as json.Unmarshal does).  Trailing input after the
closing brace is rejected, as json.Unmarshal rejects trailing garbage. -/
def sessionUnmarshal (cs : List Char) : Option Session :=
  match expectChars litEmailIndex cs with
  | none => none
  | some r1 =>
    match parseInt? r1 with
    | none => none
    | some (ei, r2) =>
      match expectChars litPoolName r2 with
      | none => none
      | some r3 =>
        match parseNameChars r3 with
        | none => none
        | some (name, r4) =>
          match expectChars litPoolPosition r4 with
          | none => none
          | some r5 =>
            match parseInt? r5 with
            | none => none
            | some (pp, r6) =>
              match expectChars litBoundaries r6 with
              | none => none
              | some r7 =>
                match parseBoundaries r7.length r7 with
                | none => none
                | some (bs, r8) =>
                  match expectChars litClose r8 with
                  | none => none
                  | some r9 =>
                    match r9 with
                    | [] => some ⟨pp, name, ei, bs⟩
                    | _ :: _ => none

def headNotDigit : List Char → Prop
  | [] => True
  | c :: _ => c.isDigit = false

/-- Modelled from the spec (section 6): a generic JSON value, used to state
that the hand-rolled Session.MarshalJSON output is exactly the compact JSON
rendering of the documented record with its fixed field order. -/
inductive JVal where
  | jnull
  | jint (i : Int)
  | jstr (str : List Char)
  | jarr (xs : List JVal)
  | jobj (fields : List (List Char × JVal))

mutual

/-- Modelled from the spec: compact (whitespace-free) JSON rendering. -/
def jsonRender : JVal → List Char
  | .jnull => ['n', 'u', 'l', 'l']
  | .jint i => renderInt i
  | .jstr str => '"' :: (str ++ ['"'])
  | .jarr xs => '[' :: (jsonRenderItems xs ++ [']'])
  | .jobj fields => '\x7b' :: (jsonRenderFields fields ++ ['\x7d'])

/-- Comma-separated rendering of JSON array elements. -/
def jsonRenderItems : List JVal → List Char
  | [] => []
  | [x] => jsonRender x
  | x :: xs => jsonRender x ++ ',' :: jsonRenderItems xs

/-- Comma-separated rendering of JSON object fields, in order. -/
def jsonRenderFields : List (List Char × JVal) → List Char
  | [] => []
  | [(k, v)] => '"' :: (k ++ '"' :: ':' :: jsonRender v)
  | (k, v) :: fs =>
    ('"' :: (k ++ '"' :: ':' :: jsonRender v)) ++ ',' :: jsonRenderFields fs

end

/-- Modelled from the spec (section 6): the session record as a JSON value,
field names and order fixed: email-index, pool-name, pool-position,
boundaries; boundaries is the ordered list of ciphertext chunks, each an
array of unsigned byte values (null for a nil slice). -/
def sessionJsonValue (s : Session) : JVal :=
  .jobj [
    (['e', 'm', 'a', 'i', 'l', '-', 'i', 'n', 'd', 'e', 'x'],
      .jint s.EmailIndex),
    (['p', 'o', 'o', 'l', '-', 'n', 'a', 'm', 'e'], .jstr s.PoolName),
    (['p', 'o', 'o', 'l', '-', 'p', 'o', 's', 'i', 't', 'i', 'o', 'n'],
      .jint s.PoolPointerPosition),
    (['b', 'o', 'u', 'n', 'd', 'a', 'r', 'i', 'e', 's'],
      match s.Boundaries with
      | none => .jnull
      | some bs =>
        .jarr (bs.map (fun a => .jarr (a.map (fun v => .jint (Int.ofNat v))))))]

/-- PoolCreate of resource/pool.go, modelled at the byte level of the
destination file.  existing holds the destination's current contents when
a file already exists there (none when it does not).  The Go code opens
the destination with os.OpenFile(poolPath, os.O_CREATE, 0644): there is no
existence check and no O_EXCL, so an existing file is opened rather than
rejected, and no O_TRUNC, so its old bytes stay in place.  (On the Windows
platform this repository targets — see the README and the .exe usage
comments — Go's syscall.Open grants GENERIC_WRITE whenever O_CREAT is set,
so the subsequent writes succeed; the package tests exercise exactly this
path.)  The function then writes eight zero header bytes at offset 0,
copies the source bytes after them — overwriting the prefix of any
previous contents in place, a longer previous file keeping its tail — and
returns a pool handle with a nil error.  some models that nil-error
return, carrying the destination file's final contents. -/
def PoolCreate (existing : Option (List Nat)) (source : List Nat) :
    Option (List Nat) :=
  some ((List.replicate 8 0 ++ source) ++ (existing.getD []).drop (8 + source.length))

theorem getBytes_wf_ok (p : Pool) (count : Int)
    (hwf : p.Wf) (hpos : 0 < count)
    (havail : p.Position + count.toNat ≤ p.data.length) :
    Pool.GetBytes p count true =
      .ok (byteSlice p.data p.Position count.toNat) (p.advance count.toNat) := by
  obtain ⟨hr, hh⟩ := hwf
  unfold Pool.GetBytes
  rw [if_neg (by omega), hr, if_neg (by omega), if_pos rfl]
  simp [Pool.advance]

theorem pool_advance_wf (p : Pool) (n : Nat) :
    (p.advance n).Wf := by
  constructor <;> simp [Pool.advance]

/-- C1: a successful take (Pool.GetBytes(count)) on a pool whose cursor is c,
with at least count bytes of data past c and count > 0, returns exactly the
data-region bytes at offsets c..c+count, persists the new cursor c+count to
the header, and advances the in-memory cursor to c+count; when the header
persistence fails, the call errors out with the in-memory cursor (and the
modelled header) unchanged — the in-memory cursor advances only after the
persistence succeeds. -/
theorem spec_C1_getBytes_take (p : Pool) (count : Int)
    (hwf : p.Wf) (hpos : 0 < count)
    (havail : p.Position + count.toNat ≤ p.data.length) :
    Pool.GetBytes p count true =
      .ok (byteSlice p.data p.Position count.toNat)
        ⟨p.Position + count.toNat, p.data,
         p.Position + count.toNat, p.Position + count.toNat⟩
    ∧ Pool.GetBytes p count false =
      .failed ⟨p.header, p.data, p.Position + count.toNat, p.Position⟩ := by
  obtain ⟨hr, hh⟩ := hwf
  constructor
  · unfold Pool.GetBytes
    rw [if_neg (by omega), hr, if_neg (by omega), if_pos rfl]
  · unfold Pool.GetBytes
    rw [if_neg (by omega), hr, if_neg (by omega), if_neg (by simp)]

theorem spec_C1_witness :
    Pool.Wf ⟨0, [10, 20, 30], 0, 0⟩ ∧ (0 : Int) < 2 ∧
      (Pool.GetBytes ⟨0, [10, 20, 30], 0, 0⟩ 2 true =
        .ok (byteSlice [10, 20, 30] 0 (Int.toNat 2)) ⟨2, [10, 20, 30], 2, 2⟩
      ∧ Pool.GetBytes ⟨0, [10, 20, 30], 0, 0⟩ 2 false =
        .failed ⟨0, [10, 20, 30], 2, 0⟩) :=
  ⟨by decide, by decide,
    spec_C1_getBytes_take ⟨0, [10, 20, 30], 0, 0⟩ 2 (by decide) (by decide) (by decide)⟩

/-- C2: a take (Pool.GetBytes(count)) on a pool with fewer than count bytes
remaining past the cursor fails with an error; the persisted header cursor
(as read back by GetPositionFromFile), the in-memory cursor and the data
region are unchanged — no partial consumption is recorded.  The instance of
the claim with exactly count - 1 remaining bytes is the special case
data length = Position + count - 1. -/
theorem spec_C2_getBytes_exhausted (p : Pool) (count : Int) (persistOk : Bool)
    (hwf : p.Wf) (hpos : 0 < count)
    (hshort : p.data.length < p.Position + count.toNat) :
    ∃ q, Pool.GetBytes p count persistOk = .failed q ∧
      q.GetPositionFromFile = p.GetPositionFromFile ∧
      q.Position = p.Position ∧ q.data = p.data := by
  obtain ⟨hr, hh⟩ := hwf
  refine ⟨⟨p.header, p.data,
      min (p.Position + count.toNat) (max p.Position p.data.length), p.Position⟩,
    ?_, rfl, rfl, rfl⟩
  unfold Pool.GetBytes
  rw [if_neg (by omega), hr, if_pos (by omega)]

theorem spec_C2_witness :
    Pool.Wf ⟨0, [1, 2, 3], 0, 0⟩ ∧ (0 : Int) < 4 ∧
      (3 : Nat) < 0 + Int.toNat 4 ∧
      (∃ q, Pool.GetBytes ⟨0, [1, 2, 3], 0, 0⟩ 4 true = .failed q ∧
        q.GetPositionFromFile = Pool.GetPositionFromFile ⟨0, [1, 2, 3], 0, 0⟩ ∧
        q.Position = 0 ∧ q.data = [1, 2, 3]) :=
  ⟨by decide, by decide, by decide,
    spec_C2_getBytes_exhausted ⟨0, [1, 2, 3], 0, 0⟩ 4 true (by decide) (by decide)
      (by decide)⟩

/-- C10: Pool.GetBytes panics (rather than returning an error result) for
every count <= 0, leaving the pool state untouched; consequently
Pool.GetBytesAsChunks panics for every argument pair whose product
chunkCount * chunkLength is <= 0 (in particular chunkCount = 0), instead of
returning an empty chunk sequence or an error, again leaving the pool state
untouched. -/
theorem spec_C10_nonpositive_panics (p : Pool) (persistOk : Bool) :
    (∀ count : Int, count ≤ 0 → Pool.GetBytes p count persistOk = .panicked p) ∧
    (∀ chunkCount chunkLength : Int, chunkCount * chunkLength ≤ 0 →
      Pool.GetBytesAsChunks p chunkCount chunkLength persistOk = .panicked p) := by
  constructor
  · intro c hc
    unfold Pool.GetBytes
    rw [if_pos hc]
  · intro cc cl h
    unfold Pool.GetBytesAsChunks Pool.GetBytes
    rw [if_pos h]

theorem natSumTo_zero (counts : List Int) : natSumTo counts 0 = 0 := rfl

theorem natSumTo_cons_succ (c : Int) (cs : List Int) (i : Nat) :
    natSumTo (c :: cs) (i + 1) = c.toNat + natSumTo cs i := by
  simp [natSumTo]

theorem natSumTo_mono (counts : List Int) (i j : Nat) (h : i ≤ j) :
    natSumTo counts i ≤ natSumTo counts j := by
  have hj : j = i + (j - i) := by omega
  rw [natSumTo, natSumTo, hj, List.take_add, List.map_append, List.sum_append]
  omega

theorem natSumTo_succ_get (counts : List Int) (i : Nat) (h : i < counts.length) :
    natSumTo counts (i + 1) = natSumTo counts i + (counts.get ⟨i, h⟩).toNat := by
  induction counts generalizing i with
  | nil => simp at h
  | cons c cs ih =>
    cases i with
    | zero => simp [natSumTo]
    | succ j =>
      rw [natSumTo_cons_succ, natSumTo_cons_succ, ih j (by simpa using h)]
      simp [List.get]
      omega

/-- Inversion of a successful GetBytes from a well-formed pool state. -/
theorem getBytes_ok_inv (p : Pool) (c : Int) (bs : List Nat) (q : Pool)
    (hwf : p.Wf) (h : Pool.GetBytes p c true = .ok bs q) :
    0 < c ∧ p.Position + c.toNat ≤ p.data.length ∧
      bs = byteSlice p.data p.Position c.toNat ∧ q = p.advance c.toNat := by
  obtain ⟨hr, hh⟩ := hwf
  unfold Pool.GetBytes at h
  by_cases h1 : c ≤ 0
  · rw [if_pos h1] at h; cases h
  · rw [if_neg h1] at h
    by_cases h2 : p.data.length < p.readPtr + c.toNat
    · rw [if_pos h2] at h; cases h
    · rw [if_neg h2, if_pos rfl] at h
      injection h with hbs hq
      refine ⟨by omega, by omega, ?_, ?_⟩
      · rw [← hbs, hr]
      · rw [← hq]; simp [Pool.advance, hr]

/-- Core induction for C3: a fully successful take sequence returns, for its
i-th call, exactly the data bytes starting at the initial cursor plus the
sum of the previous counts, and leaves a well-formed pool whose cursor
advanced by the total. -/
theorem takeSeq_spec (counts : List Int) :
    ∀ (p : Pool) (out : List (List Nat)) (q : Pool),
    p.Wf → takeSeq p counts = some (out, q) →
    out.length = counts.length ∧
    (∀ i (h1 : i < out.length) (h2 : i < counts.length),
      out.get ⟨i, h1⟩ =
        byteSlice p.data (p.Position + natSumTo counts i) ((counts.get ⟨i, h2⟩).toNat)) ∧
    q.Wf ∧ q.data = p.data ∧
    q.Position = p.Position + natSumTo counts counts.length := by
  induction counts with
  | nil =>
    intro p out q hwf h
    unfold takeSeq at h
    injection h with h
    injection h with hout hq
    subst hout; subst hq
    refine ⟨rfl, ?_, hwf, rfl, by simp [natSumTo]⟩
    intro i h1 h2
    simp at h1
  | cons c cs ih =>
    intro p out q hwf h
    unfold takeSeq at h
    cases hg : Pool.GetBytes p c true with
    | panicked p1 => rw [hg] at h; cases h
    | failed p1 => rw [hg] at h; cases h
    | ok bs p1 =>
      rw [hg] at h
      dsimp only at h
      cases ht : takeSeq p1 cs with
      | none => rw [ht] at h; cases h
      | some pr =>
        obtain ⟨rest, q1⟩ := pr
        rw [ht] at h
        dsimp only at h
        injection h with h
        injection h with hout hq
        subst hout; subst hq
        obtain ⟨hc, havail, hbs, hp1⟩ := getBytes_ok_inv p c bs p1 hwf hg
        have hp1wf : p1.Wf := by rw [hp1]; exact pool_advance_wf p c.toNat
        obtain ⟨hlen, hget, hqwf, hqdata, hqpos⟩ := ih p1 rest q1 hp1wf ht
        have hp1data : p1.data = p.data := by rw [hp1]; rfl
        have hp1pos : p1.Position = p.Position + c.toNat := by rw [hp1]; rfl
        refine ⟨by simp [hlen], ?_, hqwf, by rw [hqdata, hp1data], ?_⟩
        · intro i h1 h2
          cases i with
          | zero =>
            simp only [List.get, natSumTo_zero, Nat.add_zero]
            exact hbs
          | succ j =>
            have hj1 : j < rest.length := by simpa using h1
            have hj2 : j < cs.length := by simpa using h2
            have := hget j hj1 hj2
            simp only [List.get]
            rw [this, hp1data, hp1pos, natSumTo_cons_succ]
            congr 1
            omega
        · rw [hqpos, hp1pos, List.length_cons, natSumTo_cons_succ]
          omega

/-- C3: for a single-process sequence of successful takes against one pool,
the i-th returned range starts at the initial cursor plus the sum of the
previous counts (contiguity), earlier ranges end no later than later ones
begin (pairwise disjointness), and after closing and reopening the pool the
next successful take returns the bytes starting exactly at the last
persisted cursor. -/
theorem spec_C3_takeSeq_disjoint_reopen (p : Pool) (counts : List Int)
    (out : List (List Nat)) (q : Pool)
    (hwf : p.Wf) (h : takeSeq p counts = some (out, q)) :
    out.length = counts.length ∧
    (∀ i (h1 : i < out.length) (h2 : i < counts.length),
      out.get ⟨i, h1⟩ =
        byteSlice p.data (p.Position + natSumTo counts i) ((counts.get ⟨i, h2⟩).toNat)) ∧
    (∀ i j (hi : i < counts.length) (hj : j < counts.length), i < j →
      p.Position + natSumTo counts i + (counts.get ⟨i, hi⟩).toNat ≤
        p.Position + natSumTo counts j) ∧
    (∀ n : Int, 0 < n → q.Position + n.toNat ≤ q.data.length →
      ∃ r r2, PoolOpen (poolClose q) = some r ∧
        Pool.GetBytes r n true =
          .ok (byteSlice p.data (Pool.GetPositionFromFile q) n.toNat) r2) := by
  obtain ⟨hlen, hget, hqwf, hqdata, hqpos⟩ := takeSeq_spec counts p out q hwf h
  refine ⟨hlen, hget, ?_, ?_⟩
  · intro i j hi hj hij
    have h1 := natSumTo_succ_get counts i hi
    have h2 := natSumTo_mono counts (i + 1) j (by omega)
    omega
  · intro n hn havail
    obtain ⟨hqr, hqh⟩ := hqwf
    have hopen : PoolOpen (poolClose q) = some ⟨q.header, q.data, q.header, q.header⟩ := by
      unfold PoolOpen poolClose
      dsimp only
      rw [if_neg (by omega)]
      simp
    have havail2 : q.header + n.toNat ≤ q.data.length := by omega
    refine ⟨⟨q.header, q.data, q.header, q.header⟩,
      Pool.advance ⟨q.header, q.data, q.header, q.header⟩ n.toNat, hopen, ?_⟩
    have hgb := getBytes_wf_ok ⟨q.header, q.data, q.header, q.header⟩ n
      ⟨rfl, rfl⟩ hn havail2
    rw [hgb, hqdata]
    rfl

theorem spec_C3_witness :
    Pool.Wf ⟨0, [0, 1, 2, 3, 4, 5], 0, 0⟩ ∧
    takeSeq ⟨0, [0, 1, 2, 3, 4, 5], 0, 0⟩ [2, 3] =
      some ([[0, 1], [2, 3, 4]], ⟨5, [0, 1, 2, 3, 4, 5], 5, 5⟩) ∧
    ([[0, 1], [2, 3, 4]] : List (List Nat)).length = ([2, 3] : List Int).length :=
  ⟨by decide, by decide,
   (spec_C3_takeSeq_disjoint_reopen ⟨0, [0, 1, 2, 3, 4, 5], 0, 0⟩ [2, 3]
      [[0, 1], [2, 3, 4]] ⟨5, [0, 1, 2, 3, 4, 5], 5, 5⟩ (by decide) (by decide)).1⟩

theorem spec_C10_witness :
    ((0 : Int) ≤ 0 ∧
      Pool.GetBytes ⟨0, [5], 0, 0⟩ 0 true = .panicked ⟨0, [5], 0, 0⟩) ∧
    ((0 : Int) * 35 ≤ 0 ∧
      Pool.GetBytesAsChunks ⟨0, [5], 0, 0⟩ 0 35 true = .panicked ⟨0, [5], 0, 0⟩) :=
  ⟨⟨by decide, (spec_C10_nonpositive_panics ⟨0, [5], 0, 0⟩ true).1 0 (by decide)⟩,
   ⟨by decide, (spec_C10_nonpositive_panics ⟨0, [5], 0, 0⟩ true).2 0 35 (by decide)⟩⟩

theorem zipWith_xor_involution (p : List Nat) :
    ∀ k : List Nat, p.length = k.length →
      List.zipWith Nat.xor (List.zipWith Nat.xor p k) k = p := by
  induction p with
  | nil => intro k h; simp
  | cons a as ih =>
    intro k h
    cases k with
    | nil => simp at h
    | cons b bs =>
      simp only [List.zipWith_cons_cons]
      have hx : Nat.xor (Nat.xor a b) b = a := by
        show a ^^^ b ^^^ b = a
        rw [Nat.xor_assoc, Nat.xor_self, Nat.xor_zero]
      rw [hx, ih bs (by simpa using h)]

/-- C6: for equal-length byte sequences p and k, cypher(p, k) succeeds with
a result of the same length, and cypher(cypher(p, k), k) = p — the XOR
combinator is its own inverse, so the same operation encrypts and
decrypts. -/
theorem spec_C6_cypher_involution (p k : List Nat) (h : p.length = k.length) :
    ∃ c, cypher p k = some c ∧ c.length = p.length ∧ cypher c k = some p := by
  refine ⟨List.zipWith Nat.xor p k, ?_, ?_, ?_⟩
  · unfold cypher
    rw [if_neg (by omega)]
  · simp [h]
  · unfold cypher
    rw [if_neg (by simp [h]), zipWith_xor_involution p k h]

theorem spec_C6_witness :
    ([1, 2, 255] : List Nat).length = ([3, 7, 128] : List Nat).length ∧
    ∃ c, cypher [1, 2, 255] [3, 7, 128] = some c ∧
      c.length = ([1, 2, 255] : List Nat).length ∧
      cypher c [3, 7, 128] = some [1, 2, 255] :=
  ⟨by decide, spec_C6_cypher_involution [1, 2, 255] [3, 7, 128] (by decide)⟩

theorem join_full_chunks (message : List Nat) (L : Nat) :
    ∀ k : Nat,
      (((List.range k).map (fun i => byteSlice message (i * L) L)).flatten) =
        message.take (k * L) := by
  intro k
  induction k with
  | zero => simp
  | succ j ih =>
    rw [List.range_succ, List.map_append, List.flatten_append, ih]
    simp only [List.map_cons, List.map_nil, List.flatten_cons, List.flatten_nil,
      List.append_nil]
    rw [byteSlice, ← List.take_add]
    congr 1
    ring

theorem full_chunk_length (message : List Nat) (L i : Nat)
    (h : (i + 1) * L ≤ message.length) :
    (byteSlice message (i * L) L).length = L := by
  rw [byteSlice]
  rw [Nat.succ_mul] at h
  simp only [List.length_take, List.length_drop]
  omega

/-- C5: for a payload of at most 65535 bytes and chunk length L > 0, framing
produces exactly ceil((2 + len(payload)) / L) chunks, each of length L,
whose in-order concatenation is the 2-byte little-endian payload length,
then the payload, then the zero padding that completes the final chunk when
2 + len(payload) is not a multiple of L; a payload longer than 65535 bytes
fails; and framing the payload "AB" with chunk length 4 yields the single
chunk 02 00 41 42. -/
theorem spec_C5_messageLoad_framing (payload : List Nat) (L : Nat) (hL : 0 < L) :
    (payload.length ≤ 65535 →
      ∃ chunks, MessageLoad payload L = some chunks ∧
        chunks.length = (2 + payload.length + (L - 1)) / L ∧
        (∀ ch ∈ chunks, ch.length = L) ∧
        chunks.flatten = lenPrefixLE payload.length ++ payload ++
          List.replicate ((L - (2 + payload.length) % L) % L) 0) ∧
    (65535 < payload.length → MessageLoad payload L = none) ∧
    MessageLoad [65, 66] 4 = some [[2, 0, 65, 66]] := by
  refine ⟨?_, ?_, by decide⟩
  · intro hlen
    unfold MessageLoad
    rw [if_neg (by omega)]
    set m : List Nat := lenPrefixLE payload.length ++ payload with hmdef
    have hmlen : m.length = 2 + payload.length := by
      simp [hmdef, lenPrefixLE]
      omega
    set k : Nat := m.length / L with hkdef
    have hA : L * k + m.length % L = m.length := Nat.div_add_mod m.length L
    have hcomm : k * L = L * k := Nat.mul_comm k L
    have hrlt : m.length % L < L := Nat.mod_lt _ hL
    by_cases hr : 0 < m.length % L
    · rw [if_pos hr]
      refine ⟨_, rfl, ?_, ?_, ?_⟩
      · simp only [List.length_append, List.length_map, List.length_range,
          List.length_cons, List.length_nil]
        rw [← hmlen]
        have hLk1 : L * (k + 1) = L * k + L := by ring
        have h1 : m.length + (L - 1) = L * (k + 1) + (m.length % L - 1) := by omega
        rw [h1, Nat.mul_add_div hL, Nat.div_eq_of_lt (by omega)]
      · intro ch hch
        rcases List.mem_append.mp hch with h | h
        · obtain ⟨i, hi, hieq⟩ := List.mem_map.mp h
          have hik : i < k := List.mem_range.mp hi
          have h2 : (i + 1) * L ≤ k * L := Nat.mul_le_mul_right L hik
          rw [← hieq]
          exact full_chunk_length m L i (by omega)
        · rw [List.mem_singleton.mp h]
          simp only [List.length_append, List.length_drop, List.length_replicate]
          omega
      · rw [List.flatten_append, join_full_chunks m L k]
        simp only [List.flatten_cons, List.flatten_nil, List.append_nil]
        rw [show L * k = k * L from hcomm.symm, ← List.append_assoc,
          List.take_append_drop]
        congr 1
        rw [← hmlen, Nat.mod_eq_of_lt (show L - m.length % L < L from by omega)]
    · rw [if_neg hr]
      have hr0 : m.length % L = 0 := by omega
      refine ⟨_, rfl, ?_, ?_, ?_⟩
      · simp only [List.length_map, List.length_range]
        rw [← hmlen]
        have h1 : m.length + (L - 1) = L * k + (L - 1) := by omega
        rw [h1, Nat.mul_add_div hL, Nat.div_eq_of_lt (by omega)]
        omega
      · intro ch hch
        obtain ⟨i, hi, hieq⟩ := List.mem_map.mp hch
        have hik : i < k := List.mem_range.mp hi
        have h2 : (i + 1) * L ≤ k * L := Nat.mul_le_mul_right L hik
        rw [← hieq]
        exact full_chunk_length m L i (by omega)
      · rw [join_full_chunks m L k,
          show k * L = m.length from by omega, List.take_length,
          ← hmlen, hr0]
        simp
  · intro h
    unfold MessageLoad
    rw [if_pos h]

theorem spec_C5_witness :
    0 < 4 ∧ MessageLoad [65, 66] 4 = some [[2, 0, 65, 66]] :=
  ⟨by decide, (spec_C5_messageLoad_framing [65, 66] 4 (by decide)).2.2⟩

theorem cypher_some_inv (m k c : List Nat) (h : cypher m k = some c) :
    m.length = k.length ∧ c = List.zipWith Nat.xor m k := by
  unfold cypher at h
  by_cases hl : m.length ≠ k.length
  · rw [if_pos hl] at h; cases h
  · rw [if_neg hl] at h
    injection h with h
    exact ⟨by omega, h.symm⟩

theorem addBoundaries_spec (pairs : List (List Nat × List Nat)) :
    ∀ (s : Session) (bs : List (List Nat)) (s' : Session),
      s.Boundaries = some bs → addBoundaries s pairs = some s' →
      s'.PoolName = s.PoolName ∧
      s'.PoolPointerPosition = s.PoolPointerPosition ∧
      s'.EmailIndex = s.EmailIndex ∧
      s'.Boundaries = some (bs ++
        pairs.map (fun mk => List.zipWith Nat.xor mk.1 mk.2)) := by
  induction pairs with
  | nil =>
    intro s bs s' hb h
    unfold addBoundaries at h
    injection h with h
    subst h
    simpa using hb
  | cons mk rest ih =>
    intro s bs s' hb h
    obtain ⟨m, k⟩ := mk
    unfold addBoundaries at h
    cases hc : cypher m k with
    | none => rw [hc] at h; cases h
    | some c =>
      rw [hc] at h
      dsimp only at h
      obtain ⟨hlen, hceq⟩ := cypher_some_inv m k c hc
      have hadd : (s.AddBoundary c).Boundaries = some (bs ++ [c]) := by
        simp [Session.AddBoundary, hb]
      obtain ⟨h1, h2, h3, h4⟩ := ih (s.AddBoundary c) (bs ++ [c]) s' hadd h
      refine ⟨h1, h2, h3, ?_⟩
      rw [h4, hceq]
      simp [Session.AddBoundary]

theorem getBytesAsChunks_ok_inv (p : Pool) (cc cl : Int) (pk : Bool)
    (chunks : List (List Nat)) (q : Pool)
    (h : Pool.GetBytesAsChunks p cc cl pk = .ok chunks q) :
    chunks.length = cc.toNat := by
  unfold Pool.GetBytesAsChunks at h
  cases hg : Pool.GetBytes p (cc * cl) pk with
  | panicked q2 => rw [hg] at h; cases h
  | failed q2 => rw [hg] at h; cases h
  | ok buffer q2 =>
    rw [hg] at h
    dsimp only at h
    injection h with h1 h2
    rw [← h1]
    simp

/-- C7: a successful session creation records the pool name and the pool
cursor value read when the pool was opened — before the key material was
drawn — initializes the send-progress index EmailIndex to 0, and stores
exactly one ciphertext chunk per plaintext chunk, each being the XOR of the
plaintext chunk with its key chunk. -/
theorem spec_C7_createSession_records (keyName : List Char) (f : PoolFile)
    (payload : List Nat) (s : Session) (q : Pool)
    (h : processCreateSession keyName f payload = some (s, q)) :
    ∃ pool message key q2 bs,
      PoolOpen f = some pool ∧
      MessageLoad payload boundaryLength = some message ∧
      Pool.GetBytesAsChunks pool (message.length : Int) (boundaryLength : Int)
        true = .ok key q2 ∧
      s.PoolName = keyName ∧
      s.PoolPointerPosition = (pool.Position : Int) ∧
      s.EmailIndex = 0 ∧
      s.Boundaries = some bs ∧
      bs.length = message.length ∧
      ∀ i (h1 : i < bs.length) (h2 : i < message.length) (h3 : i < key.length),
        bs.get ⟨i, h1⟩ =
          List.zipWith Nat.xor (message.get ⟨i, h2⟩) (key.get ⟨i, h3⟩) := by
  unfold processCreateSession at h
  cases ho : PoolOpen f with
  | none => rw [ho] at h; cases h
  | some pool =>
    rw [ho] at h
    dsimp only at h
    cases hm : MessageLoad payload boundaryLength with
    | none => rw [hm] at h; cases h
    | some message =>
      rw [hm] at h
      dsimp only at h
      cases hk : Pool.GetBytesAsChunks pool (message.length : Int)
          (boundaryLength : Int) true with
      | panicked q2 => rw [hk] at h; cases h
      | failed q2 => rw [hk] at h; cases h
      | ok key q2 =>
        rw [hk] at h
        dsimp only at h
        cases ha : addBoundaries (Session.Init keyName (pool.Position : Int))
            (message.zip key) with
        | none => rw [ha] at h; cases h
        | some s2 =>
          rw [ha] at h
          dsimp only at h
          injection h with h
          injection h with hs hq
          subst hs; subst hq
          have hkey : key.length = message.length := by
            have := getBytesAsChunks_ok_inv pool (message.length : Int)
              (boundaryLength : Int) true key q2 hk
            simpa using this
          obtain ⟨h1, h2, h3, h4⟩ := addBoundaries_spec (message.zip key)
            (Session.Init keyName (pool.Position : Int)) [] s2 rfl ha
          refine ⟨pool, message, key, q2,
            (message.zip key).map (fun mk => List.zipWith Nat.xor mk.1 mk.2),
            rfl, rfl, hk, h1, h2, h3, by simpa using h4, ?_, ?_⟩
          · simp [List.length_zip, hkey]
          · intro i hi1 hi2 hi3
            simp [List.get_eq_getElem, List.getElem_map, List.getElem_zip]

theorem spec_C7_witness :
    processCreateSession ['k'] ⟨0, List.replicate 35 7⟩ [] =
      some (⟨0, ['k'], 0, some [List.replicate 35 7]⟩,
            ⟨35, List.replicate 35 7, 35, 35⟩) ∧
    (∃ pool message key q2 bs,
      PoolOpen ⟨0, List.replicate 35 7⟩ = some pool ∧
      MessageLoad [] boundaryLength = some message ∧
      Pool.GetBytesAsChunks pool (message.length : Int) (boundaryLength : Int)
        true = .ok key q2 ∧
      Session.PoolName ⟨0, ['k'], 0, some [List.replicate 35 7]⟩ = ['k'] ∧
      Session.PoolPointerPosition ⟨0, ['k'], 0, some [List.replicate 35 7]⟩ =
        (pool.Position : Int) ∧
      Session.EmailIndex ⟨0, ['k'], 0, some [List.replicate 35 7]⟩ = 0 ∧
      Session.Boundaries ⟨0, ['k'], 0, some [List.replicate 35 7]⟩ = some bs ∧
      bs.length = message.length ∧
      ∀ i (h1 : i < bs.length) (h2 : i < message.length) (h3 : i < key.length),
        bs.get ⟨i, h1⟩ =
          List.zipWith Nat.xor (message.get ⟨i, h2⟩) (key.get ⟨i, h3⟩)) :=
  ⟨by decide,
   spec_C7_createSession_records ['k'] ⟨0, List.replicate 35 7⟩ []
     ⟨0, ['k'], 0, some [List.replicate 35 7]⟩
     ⟨35, List.replicate 35 7, 35, 35⟩ (by decide)⟩

/-- C8: when the send-progress index EmailIndex equals or exceeds the
number of ciphertext chunks, processSend fails and leaves the stored
session unmodified; a successful send increments the index by exactly one
and changes nothing else; consequently the index never exceeds the chunk
count. -/
theorem spec_C8_processSend_guard (s : Session) (smtpOk : Bool) :
    ((((s.Boundaries.getD []).length : Int) ≤ s.EmailIndex →
      processSend s smtpOk = .errored s) ∧
    (∀ s2, processSend s smtpOk = .sent s2 →
      s2.EmailIndex = s.EmailIndex + 1 ∧
      s2.Boundaries = s.Boundaries ∧ s2.PoolName = s.PoolName ∧
      s2.PoolPointerPosition = s.PoolPointerPosition)) ∧
    (s.EmailIndex ≤ ((s.Boundaries.getD []).length : Int) →
      (processSend s smtpOk).stored.EmailIndex ≤
        ((((processSend s smtpOk).stored).Boundaries.getD []).length : Int)) := by
  unfold processSend
  by_cases hg : ((s.Boundaries.getD []).length : Int) ≤ s.EmailIndex
  · rw [if_pos hg]
    refine ⟨⟨fun _ => rfl, ?_⟩, fun h => h⟩
    intro s2 h
    cases h
  · rw [if_neg hg]
    by_cases hneg : s.EmailIndex < 0
    · rw [if_pos hneg]
      refine ⟨⟨fun h => absurd h hg, ?_⟩, ?_⟩
      · intro s2 h
        cases h
      · intro _
        show s.EmailIndex ≤ _
        omega
    · rw [if_neg hneg]
      cases smtpOk with
      | false =>
        rw [if_neg (by simp)]
        refine ⟨⟨fun h => absurd h hg, ?_⟩, fun h => h⟩
        intro s2 h
        cases h
      | true =>
        rw [if_pos rfl]
        refine ⟨⟨fun h => absurd h hg, ?_⟩, fun _ => by simp [SendResult.stored]; omega⟩
        intro s2 h
        injection h with h
        subst h
        exact ⟨rfl, rfl, rfl, rfl⟩

theorem spec_C8_witness :
    ((((Session.Boundaries ⟨0, ['k'], 2, some [[1], [2]]⟩).getD []).length : Int) ≤
      Session.EmailIndex ⟨0, ['k'], 2, some [[1], [2]]⟩) ∧
    processSend ⟨0, ['k'], 2, some [[1], [2]]⟩ true =
      .errored ⟨0, ['k'], 2, some [[1], [2]]⟩ :=
  ⟨by decide,
   ((spec_C8_processSend_guard ⟨0, ['k'], 2, some [[1], [2]]⟩ true).1.1 (by decide))⟩

theorem renderNatAux_mono :
    ∀ f1 f2 n, n < f1 → n < f2 → renderNatAux f1 n = renderNatAux f2 n := by
  intro f1
  induction f1 with
  | zero => intro f2 n h1 _; omega
  | succ g ih =>
    intro f2 n h1 h2
    cases f2 with
    | zero => omega
    | succ k =>
      simp only [renderNatAux]
      by_cases hn : n < 10
      · rw [if_pos hn, if_pos hn]
      · rw [if_neg hn, if_neg hn]
        have hd : n / 10 < n := Nat.div_lt_self (by omega) (by omega)
        rw [ih k (n / 10) (by omega) (by omega)]

theorem renderNat_eq (n : Nat) :
    renderNat n = if n < 10 then [digitChar n]
      else renderNat (n / 10) ++ [digitChar (n % 10)] := by
  show renderNatAux (n + 1) n = _
  by_cases hn : n < 10
  · simp only [renderNatAux]
    rw [if_pos hn, if_pos hn]
  · simp only [renderNatAux]
    rw [if_neg hn, if_neg hn]
    have hd : n / 10 < n := Nat.div_lt_self (by omega) (by omega)
    rw [show renderNat (n / 10) = renderNatAux (n / 10 + 1) (n / 10) from rfl,
      renderNatAux_mono n (n / 10 + 1) (n / 10) (by omega) (by omega)]

theorem expectChars_append (lit : List Char) :
    ∀ rest, expectChars lit (lit ++ rest) = some rest := by
  induction lit with
  | nil => intro rest; rfl
  | cons e es ih =>
    intro rest
    show expectChars (e :: es) (e :: (es ++ rest)) = some rest
    have h : expectChars (e :: es) (e :: (es ++ rest)) =
        if e = e then expectChars es (es ++ rest) else none := rfl
    rw [h, if_pos rfl]
    exact ih rest

theorem digitChar_isDigit (d : Nat) (h : d < 10) : (digitChar d).isDigit = true := by
  interval_cases d <;> decide

theorem digitChar_toNat (d : Nat) (h : d < 10) : (digitChar d).toNat - 48 = d := by
  interval_cases d <;> decide

theorem renderNat_ne_nil (n : Nat) : renderNat n ≠ [] := by
  rw [renderNat_eq]
  by_cases h : n < 10
  · rw [if_pos h]; simp
  · rw [if_neg h]; simp

theorem renderNat_digits (n : Nat) : ∀ c ∈ renderNat n, c.isDigit = true := by
  induction n using Nat.strong_induction_on with
  | _ n ih =>
    rw [renderNat_eq]
    by_cases h : n < 10
    · rw [if_pos h]
      intro c hc
      rw [List.mem_singleton] at hc
      subst hc
      exact digitChar_isDigit n h
    · rw [if_neg h]
      intro c hc
      rw [List.mem_append] at hc
      rcases hc with hc | hc
      · exact ih (n / 10) (Nat.div_lt_self (by omega) (by omega)) c hc
      · rw [List.mem_singleton] at hc
        subst hc
        exact digitChar_isDigit _ (Nat.mod_lt _ (by omega))

theorem parseNatAux_stop (acc : Nat) (rest : List Char) (h : headNotDigit rest) :
    parseNatAux acc rest = (acc, rest) := by
  cases rest with
  | nil => rfl
  | cons c cs =>
    unfold headNotDigit at h
    simp only [parseNatAux]
    rw [h]
    simp

theorem parseNatAux_digit (acc d : Nat) (hd : d < 10) (rest : List Char) :
    parseNatAux acc (digitChar d :: rest) = parseNatAux (10 * acc + d) rest := by
  simp only [parseNatAux]
  rw [digitChar_isDigit d hd]
  simp only [if_true]
  rw [digitChar_toNat d hd]

theorem parseNatAux_render (n : Nat) :
    ∀ acc rest, parseNatAux acc (renderNat n ++ rest) =
      parseNatAux (acc * 10 ^ (renderNat n).length + n) rest := by
  induction n using Nat.strong_induction_on with
  | _ n ih =>
    intro acc rest
    by_cases h : n < 10
    · rw [renderNat_eq, if_pos h]
      rw [List.singleton_append, parseNatAux_digit acc n h rest]
      congr 1
      simp only [List.length_singleton, pow_one]
      omega
    · rw [renderNat_eq, if_neg h]
      rw [List.append_assoc, ih (n / 10) (Nat.div_lt_self (by omega) (by omega)),
        List.singleton_append, parseNatAux_digit _ _ (Nat.mod_lt _ (by omega))]
      congr 1
      simp only [List.length_append, List.length_singleton]
      have hdm : 10 * (n / 10) + n % 10 = n := Nat.div_add_mod n 10
      calc 10 * (acc * 10 ^ (renderNat (n / 10)).length + n / 10) + n % 10
          = acc * 10 ^ (renderNat (n / 10)).length * 10 +
              (10 * (n / 10) + n % 10) := by ring
        _ = acc * 10 ^ (renderNat (n / 10)).length * 10 + n := by rw [hdm]
        _ = acc * 10 ^ ((renderNat (n / 10)).length + 1) + n := by
              rw [pow_succ]; ring

theorem ne_of_isDigit {c x : Char} (h : c.isDigit = true) (hx : x.isDigit = false) :
    c ≠ x := by
  intro he
  rw [he, hx] at h
  cases h

theorem parseNat?_render (n : Nat) (rest : List Char) (h : headNotDigit rest) :
    parseNat? (renderNat n ++ rest) = some (n, rest) := by
  cases hrn : renderNat n with
  | nil => exact absurd hrn (renderNat_ne_nil n)
  | cons c tail =>
    have hc : c.isDigit = true := renderNat_digits n c (by rw [hrn]; simp)
    rw [List.cons_append]
    simp only [parseNat?]
    rw [hc]
    simp only [if_true]
    rw [show c :: (tail ++ rest) = renderNat n ++ rest from by
        rw [hrn, List.cons_append],
      parseNatAux_render n 0 rest]
    simp only [Nat.zero_mul, Nat.zero_add]
    rw [parseNatAux_stop n rest h]

theorem parseInt?_render (i : Int) (rest : List Char) (h : headNotDigit rest) :
    parseInt? (renderInt i ++ rest) = some (i, rest) := by
  unfold renderInt
  by_cases hneg : i < 0
  · rw [if_pos hneg, List.cons_append]
    simp only [parseInt?, reduceIte]
    rw [parseNat?_render i.natAbs rest h]
    simp only [Option.map_some']
    have hval : -((i.natAbs : Nat) : Int) = i := by omega
    rw [hval]
  · rw [if_neg hneg]
    cases hrn : renderNat i.toNat with
    | nil => exact absurd hrn (renderNat_ne_nil i.toNat)
    | cons c tail =>
      have hc : c.isDigit = true := renderNat_digits i.toNat c (by rw [hrn]; simp)
      rw [List.cons_append]
      simp only [parseInt?]
      rw [if_neg (ne_of_isDigit hc (by decide))]
      rw [show c :: (tail ++ rest) = renderNat i.toNat ++ rest from by
          rw [hrn, List.cons_append],
        parseNat?_render i.toNat rest h]
      simp only [Option.map_some']
      have hval : ((i.toNat : Nat) : Int) = i := by omega
      rw [hval]

theorem parseNameChars_render (name : List Char)
    (hname : ∀ c ∈ name, c ≠ '"' ∧ c ≠ '\\' ∧ 32 ≤ c.toNat) :
    ∀ rest, parseNameChars (name ++ '"' :: rest) = some (name, rest) := by
  induction name with
  | nil =>
    intro rest
    show parseNameChars ('"' :: rest) = _
    simp [parseNameChars]
  | cons c cs ih =>
    intro rest
    obtain ⟨h1, h2, h3⟩ := hname c (by simp)
    rw [List.cons_append]
    simp only [parseNameChars]
    rw [if_neg h1, if_neg (by push_neg; exact ⟨h2, by omega⟩)]
    rw [ih (fun d hd => hname d (by simp [hd])) rest]
    rfl

theorem headNotDigit_cons {c : Char} (h : c.isDigit = false) (r : List Char) :
    headNotDigit (c :: r) := h

theorem parseByteItems_render (a : List Nat) :
    ∀ fuel rest, a ≠ [] → a.length ≤ fuel → (∀ v ∈ a, v < 256) →
      parseByteItems fuel (joinComma (a.map renderNat) ++ (']' :: rest)) =
        some (a, rest) := by
  induction a with
  | nil => intro fuel rest h _ _; exact absurd rfl h
  | cons x t ih =>
    intro fuel rest _ hlen hvals
    have hx : x < 256 := hvals x (by simp)
    cases fuel with
    | zero => simp at hlen
    | succ f =>
      cases t with
      | nil =>
        show parseByteItems (f + 1) (renderNat x ++ (']' :: rest)) = some ([x], rest)
        simp only [parseByteItems]
        rw [parseNat?_render x (']' :: rest) (headNotDigit_cons (by decide) _)]
        dsimp only
        rw [if_neg (by omega)]
        rfl
      | cons y t2 =>
        have hshape : joinComma ((x :: y :: t2).map renderNat) ++ (']' :: rest) =
            renderNat x ++
              (',' :: (joinComma ((y :: t2).map renderNat) ++ (']' :: rest))) := by
          show (renderNat x ++ ',' :: joinComma ((y :: t2).map renderNat)) ++
              (']' :: rest) = _
          simp
        rw [hshape]
        simp only [parseByteItems]
        rw [parseNat?_render x _ (headNotDigit_cons (by decide) _)]
        dsimp only
        rw [if_neg (by omega)]
        simp only [reduceIte]
        rw [ih f rest (by simp) (by simpa using hlen)
          (fun v hv => hvals v (by simp [hv]))]
        rfl

theorem parseByteArray_render (a : List Nat) (fuel : Nat) (rest : List Char)
    (hlen : a.length ≤ fuel) (hvals : ∀ v ∈ a, v < 256) :
    parseByteArray fuel (renderByteArray a ++ rest) = some (a, rest) := by
  cases a with
  | nil =>
    show parseByteArray fuel ('[' :: (']' :: rest)) = some ([], rest)
    simp [parseByteArray]
  | cons x t =>
    have hshape : renderByteArray (x :: t) ++ rest =
        '[' :: (joinComma ((x :: t).map renderNat) ++ (']' :: rest)) := by
      simp [renderByteArray]
    rw [hshape]
    have hjc : ∃ tail2, joinComma ((x :: t).map renderNat) =
        renderNat x ++ tail2 := by
      cases t with
      | nil => exact ⟨[], by simp [joinComma]⟩
      | cons y t2 => exact ⟨',' :: joinComma ((y :: t2).map renderNat), rfl⟩
    obtain ⟨tail2, htail2⟩ := hjc
    cases hrn : renderNat x with
    | nil => exact absurd hrn (renderNat_ne_nil x)
    | cons c ctail =>
      have hc : c.isDigit = true := renderNat_digits x c (by rw [hrn]; simp)
      have hshape2 : joinComma ((x :: t).map renderNat) ++ (']' :: rest) =
          c :: (ctail ++ tail2 ++ (']' :: rest)) := by
        rw [htail2, hrn]
        simp
      rw [hshape2]
      simp only [parseByteArray, reduceIte]
      rw [if_neg (ne_of_isDigit hc (by decide))]
      rw [show c :: (ctail ++ tail2 ++ (']' :: rest)) =
          joinComma ((x :: t).map renderNat) ++ (']' :: rest) from hshape2.symm]
      exact parseByteItems_render (x :: t) fuel rest (by simp) hlen hvals

theorem parseArrItems_render (bs : List (List Nat)) :
    ∀ fuel ifuel rest, bs ≠ [] → bs.length ≤ fuel →
      (∀ a ∈ bs, a.length ≤ ifuel ∧ ∀ v ∈ a, v < 256) →
      parseArrItems ifuel fuel
          (joinComma (bs.map renderByteArray) ++ (']' :: rest)) =
        some (bs, rest) := by
  induction bs with
  | nil => intro fuel ifuel rest h _ _; exact absurd rfl h
  | cons a t ih =>
    intro fuel ifuel rest _ hlen hvals
    cases fuel with
    | zero => simp at hlen
    | succ f =>
      cases t with
      | nil =>
        show parseArrItems ifuel (f + 1) (renderByteArray a ++ (']' :: rest)) = _
        simp only [parseArrItems]
        rw [parseByteArray_render a ifuel (']' :: rest)
          (hvals a (by simp)).1 (hvals a (by simp)).2]
        dsimp only
        rfl
      | cons b t2 =>
        have hshape : joinComma ((a :: b :: t2).map renderByteArray) ++
            (']' :: rest) =
            renderByteArray a ++
              (',' :: (joinComma ((b :: t2).map renderByteArray) ++
                (']' :: rest))) := by
          show (renderByteArray a ++
              ',' :: joinComma ((b :: t2).map renderByteArray)) ++
              (']' :: rest) = _
          simp
        rw [hshape]
        simp only [parseArrItems]
        rw [parseByteArray_render a ifuel _
          (hvals a (by simp)).1 (hvals a (by simp)).2]
        dsimp only
        simp only [reduceIte]
        rw [ih f ifuel rest (by simp) (by simpa using hlen)
          (fun a2 ha2 => hvals a2 (by simp [ha2]))]
        rfl

theorem parseBoundaries_render (ob : Option (List (List Nat))) (fuel : Nat)
    (rest : List Char)
    (hfuel1 : (ob.getD []).length ≤ fuel)
    (hfuel2 : ∀ a ∈ ob.getD [], a.length ≤ fuel)
    (hvals : ∀ a ∈ ob.getD [], ∀ v ∈ a, v < 256) :
    parseBoundaries fuel (renderBoundaries ob ++ rest) = some (ob, rest) := by
  match ob with
  | none =>
    show parseBoundaries fuel ('n' :: 'u' :: 'l' :: 'l' :: rest) = _
    simp [parseBoundaries]
  | some [] =>
    show parseBoundaries fuel ('[' :: (']' :: rest)) = _
    simp [parseBoundaries]
  | some (a :: t) =>
    obtain ⟨tail2, htail2⟩ : ∃ tail2, joinComma ((a :: t).map renderByteArray) =
        renderByteArray a ++ tail2 := by
      cases t with
      | nil => exact ⟨[], by simp [joinComma]⟩
      | cons b t2 => exact ⟨',' :: joinComma ((b :: t2).map renderByteArray), rfl⟩
    have hrest1 : joinComma ((a :: t).map renderByteArray) ++ (']' :: rest) =
        '[' :: ((joinComma (a.map renderNat) ++ [']']) ++
          (tail2 ++ (']' :: rest))) := by
      rw [htail2]
      show (('[' :: (joinComma (a.map renderNat) ++ [']'])) ++ tail2) ++
          (']' :: rest) = _
      simp
    have hinput : renderBoundaries (some (a :: t)) ++ rest =
        '[' :: ('[' :: ((joinComma (a.map renderNat) ++ [']']) ++
          (tail2 ++ (']' :: rest)))) := by
      show ('[' :: (joinComma ((a :: t).map renderByteArray) ++ [']'])) ++ rest = _
      rw [show ('[' :: (joinComma ((a :: t).map renderByteArray) ++ [']'])) ++
          rest =
          '[' :: (joinComma ((a :: t).map renderByteArray) ++ (']' :: rest)) from
        by simp, hrest1]
    rw [hinput]
    rw [show parseBoundaries fuel
        ('[' :: ('[' :: ((joinComma (a.map renderNat) ++ [']']) ++
          (tail2 ++ (']' :: rest))))) =
        (parseArrItems fuel fuel
          ('[' :: ((joinComma (a.map renderNat) ++ [']']) ++
            (tail2 ++ (']' :: rest))))).map
          (fun br => (some br.1, br.2)) from rfl]
    rw [show '[' :: ((joinComma (a.map renderNat) ++ [']']) ++
        (tail2 ++ (']' :: rest))) =
        joinComma ((a :: t).map renderByteArray) ++ (']' :: rest) from
      hrest1.symm]
    rw [parseArrItems_render (a :: t) fuel fuel rest (by simp)
      (by simpa using hfuel1)
      (fun a2 ha2 => ⟨hfuel2 a2 (by simpa using ha2),
        hvals a2 (by simpa using ha2)⟩)]
    rfl

theorem renderNat_length_pos (n : Nat) : 0 < (renderNat n).length := by
  cases h : renderNat n with
  | nil => exact absurd h (renderNat_ne_nil n)
  | cons c t => simp

theorem length_le_joinComma_rnat (a : List Nat) :
    a.length ≤ (joinComma (a.map renderNat)).length := by
  induction a with
  | nil => simp [joinComma]
  | cons x t ih =>
    cases t with
    | nil => exact renderNat_length_pos x
    | cons y t2 =>
      show (x :: y :: t2).length ≤
        (renderNat x ++ ',' :: joinComma ((y :: t2).map renderNat)).length
      have h1 := renderNat_length_pos x
      simp only [List.length_cons] at ih
      simp only [List.length_append, List.length_cons]
      omega

theorem renderByteArray_length (a : List Nat) :
    a.length ≤ (renderByteArray a).length := by
  show a.length ≤ ('[' :: (joinComma (a.map renderNat) ++ [']'])).length
  have := length_le_joinComma_rnat a
  simp only [List.length_cons, List.length_append, List.length_singleton]
  omega

theorem length_le_joinComma_rba (bs : List (List Nat)) :
    bs.length ≤ (joinComma (bs.map renderByteArray)).length := by
  induction bs with
  | nil => simp [joinComma]
  | cons a t ih =>
    cases t with
    | nil =>
      show 1 ≤ ('[' :: (joinComma (a.map renderNat) ++ [']'])).length
      simp
    | cons b t2 =>
      show (a :: b :: t2).length ≤
        (renderByteArray a ++ ',' :: joinComma ((b :: t2).map renderByteArray)).length
      have h1 : 0 < (renderByteArray a).length := by
        show 0 < ('[' :: (joinComma (a.map renderNat) ++ [']'])).length
        simp
      simp only [List.length_cons] at ih
      simp only [List.length_append, List.length_cons]
      omega

theorem mem_length_le_joinComma (l : List (List Char)) (x : List Char)
    (hx : x ∈ l) : x.length ≤ (joinComma l).length := by
  induction l with
  | nil => simp at hx
  | cons y t ih =>
    cases t with
    | nil =>
      rw [List.mem_singleton] at hx
      subst hx
      exact le_refl _
    | cons z t2 =>
      rcases List.mem_cons.mp hx with heq | hx2
      · subst heq
        show x.length ≤ (x ++ ',' :: joinComma (z :: t2)).length
        simp
      · have := ih hx2
        show x.length ≤ (y ++ ',' :: joinComma (z :: t2)).length
        simp only [List.length_append, List.length_cons]
        omega

theorem boundaries_fuel_ok (ob : Option (List (List Nat))) (extra : List Char) :
    (ob.getD []).length ≤ (renderBoundaries ob ++ extra).length ∧
    ∀ a ∈ ob.getD [], a.length ≤ (renderBoundaries ob ++ extra).length := by
  cases ob with
  | none => simp
  | some bs =>
    constructor
    · have := length_le_joinComma_rba bs
      show bs.length ≤
        (('[' :: (joinComma (bs.map renderByteArray) ++ [']'])) ++ extra).length
      simp only [List.length_cons, List.length_append, List.length_singleton]
      omega
    · intro a ha
      have h1 : (renderByteArray a).length ≤
          (joinComma (bs.map renderByteArray)).length :=
        mem_length_le_joinComma _ _ (List.mem_map_of_mem renderByteArray ha)
      have h2 := renderByteArray_length a
      show a.length ≤
        (('[' :: (joinComma (bs.map renderByteArray) ++ [']'])) ++ extra).length
      simp only [List.length_cons, List.length_append, List.length_singleton]
      omega

theorem sessionUnmarshal_render (s : Session)
    (hname : ∀ c ∈ s.PoolName, c ≠ '"' ∧ c ≠ '\\' ∧ 32 ≤ c.toNat)
    (hbytes : ∀ a ∈ s.Boundaries.getD [], ∀ v ∈ a, v < 256) :
    sessionUnmarshal (Session.MarshalJSON s) = some s := by
  obtain ⟨pp, name, ei, ob⟩ := s
  unfold Session.MarshalJSON sessionUnmarshal
  dsimp only
  simp only [List.append_assoc]
  rw [expectChars_append]
  dsimp only
  rw [parseInt?_render ei
    (litPoolName ++ (name ++ '"' :: (litPoolPosition ++ (renderInt pp ++
      (litBoundaries ++ (renderBoundaries ob ++ litClose))))))
    (headNotDigit_cons (by decide) _)]
  dsimp only
  rw [expectChars_append]
  dsimp only
  rw [parseNameChars_render name hname _]
  dsimp only
  rw [expectChars_append]
  dsimp only
  rw [parseInt?_render pp
    (litBoundaries ++ (renderBoundaries ob ++ litClose))
    (headNotDigit_cons (by decide) _)]
  dsimp only
  rw [expectChars_append]
  dsimp only
  obtain ⟨hf1, hf2⟩ := boundaries_fuel_ok ob litClose
  rw [parseBoundaries_render ob _ litClose hf1 hf2 hbytes]
  dsimp only
  rfl

theorem renderInt_natCast (v : Nat) : renderInt (Int.ofNat v) = renderNat v := by
  rw [Int.ofNat_eq_natCast]
  unfold renderInt
  rw [if_neg (by omega)]
  have h : ((v : Int)).toNat = v := by omega
  rw [h]

theorem jsonRenderItems_eq_joinComma (xs : List JVal) :
    jsonRenderItems xs = joinComma (xs.map jsonRender) := by
  induction xs with
  | nil => simp [jsonRenderItems, joinComma]
  | cons x t ih =>
    cases t with
    | nil => simp [jsonRenderItems, joinComma]
    | cons y t2 =>
      simp only [jsonRenderItems, List.map_cons, joinComma]
      rw [ih]
      simp [joinComma]

theorem jsonRender_jint_ofNat (v : Nat) :
    jsonRender (JVal.jint (Int.ofNat v)) = renderNat v := by
  simp only [jsonRender]
  exact renderInt_natCast v

theorem jsonRender_byteArray (a : List Nat) :
    jsonRender (JVal.jarr (a.map (fun v => JVal.jint (Int.ofNat v)))) =
      renderByteArray a := by
  simp only [jsonRender, jsonRenderItems_eq_joinComma, List.map_map]
  unfold renderByteArray
  have hmaps : a.map (jsonRender ∘ fun v => JVal.jint (Int.ofNat v)) =
      a.map renderNat :=
    List.map_congr_left (fun v _ => jsonRender_jint_ofNat v)
  rw [hmaps]

theorem renderBoundaries_json (ob : Option (List (List Nat))) :
    jsonRender (match ob with
      | none => JVal.jnull
      | some bs =>
        JVal.jarr (bs.map
          (fun a => JVal.jarr (a.map (fun v => JVal.jint (Int.ofNat v)))))) =
    renderBoundaries ob := by
  cases ob with
  | none => simp [jsonRender, renderBoundaries]
  | some bs =>
    simp only [jsonRender, jsonRenderItems_eq_joinComma, List.map_map,
      renderBoundaries]
    have hmaps : bs.map (jsonRender ∘ fun a =>
        JVal.jarr (a.map (fun v => JVal.jint (Int.ofNat v)))) =
        bs.map renderByteArray :=
      List.map_congr_left (fun a _ => jsonRender_byteArray a)
    rw [hmaps]

theorem marshal_eq_jsonRender (s : Session) :
    Session.MarshalJSON s = jsonRender (sessionJsonValue s) := by
  obtain ⟨pp, name, ei, ob⟩ := s
  have hb := renderBoundaries_json ob
  simp only [Session.MarshalJSON, sessionJsonValue, jsonRender,
    jsonRenderFields, litEmailIndex, litPoolName,
    litPoolPosition, litBoundaries, litClose] at hb ⊢
  rw [hb]
  simp [List.append_assoc]

/-- C9 (counterexample to the claim as stated): the session whose pool
name is the single double-quote character marshals to malformed JSON
(the name is spliced in unescaped), so Save followed by Load does not
restore an equal session — Load fails. -/
theorem spec_C9_counterexample :
    sessionUnmarshal (Session.MarshalJSON ⟨0, ['"'], 0, none⟩) ≠
      some ⟨0, ['"'], 0, none⟩ := by decide

/-- C9 (amended): for every session whose pool name contains no double
quote, backslash or control character (and whose boundary byte values are
below 256, automatic for Go uint8), Save followed by Load restores an
equal session, and the serialized record is exactly the compact JSON
rendering of the object with the fixed field names in the order
email-index, pool-name, pool-position, boundaries, where boundaries is
the ordered list of ciphertext chunks as arrays of unsigned byte
values. -/
theorem spec_C9_roundtrip_format (s : Session)
    (hname : ∀ c ∈ s.PoolName, c ≠ '"' ∧ c ≠ '\\' ∧ 32 ≤ c.toNat)
    (hbytes : ∀ a ∈ s.Boundaries.getD [], ∀ v ∈ a, v < 256) :
    sessionUnmarshal (Session.MarshalJSON s) = some s ∧
    Session.MarshalJSON s = jsonRender (sessionJsonValue s) :=
  ⟨sessionUnmarshal_render s hname hbytes, marshal_eq_jsonRender s⟩

theorem spec_C9_witness :
    (∀ c ∈ Session.PoolName ⟨5, ['t', 'e', 's', 't'], 1, some [[1, 255], []]⟩,
      c ≠ '"' ∧ c ≠ '\\' ∧ 32 ≤ c.toNat) ∧
    (∀ a ∈ (Session.Boundaries
        ⟨5, ['t', 'e', 's', 't'], 1, some [[1, 255], []]⟩).getD [],
      ∀ v ∈ a, v < 256) ∧
    (sessionUnmarshal (Session.MarshalJSON
        ⟨5, ['t', 'e', 's', 't'], 1, some [[1, 255], []]⟩) =
      some ⟨5, ['t', 'e', 's', 't'], 1, some [[1, 255], []]⟩ ∧
    Session.MarshalJSON ⟨5, ['t', 'e', 's', 't'], 1, some [[1, 255], []]⟩ =
      jsonRender (sessionJsonValue
        ⟨5, ['t', 'e', 's', 't'], 1, some [[1, 255], []]⟩)) :=
  ⟨by decide, by decide,
   spec_C9_roundtrip_format ⟨5, ['t', 'e', 's', 't'], 1, some [[1, 255], []]⟩
     (by decide) (by decide)⟩

/-- C4 (refuting evidence, code_bug): at a destination where a pool file
already exists (here 12 bytes: an 8-byte header of 9s and data 1 2 3 4),
PoolCreate does not fail — it returns success — and the existing file's
contents are changed in place: the header is zeroed and the first data
bytes are replaced by the new source, the old tail surviving.  The claim
says create must fail and never silently overwrite an existing pool. -/
theorem spec_C4_poolCreate_overwrites :
    PoolCreate (some [9, 9, 9, 9, 9, 9, 9, 9, 1, 2, 3, 4]) [7, 8] =
      some [0, 0, 0, 0, 0, 0, 0, 0, 7, 8, 3, 4] ∧
    PoolCreate (some [9, 9, 9, 9, 9, 9, 9, 9, 1, 2, 3, 4]) [7, 8] ≠
      some [9, 9, 9, 9, 9, 9, 9, 9, 1, 2, 3, 4] := by
  constructor <;> decide
